import Mathlib

set_option maxRecDepth 10000

/-!
Verification of the unikit library (unikit.c): a shallow embedding of the
table decoder, the trie query engine, the case folder and the general
category classifier, together with theorems settling the specification
claims about them.

Modelling conventions:
* `uint16_t` values are `Nat` (reduced mod 65536 exactly where the C casts);
  `int32_t` codepoint arguments are `Int`.
* Arrays are `List Nat`; out-of-range reads use `List.getD` (the C never
  performs an out-of-range read on the paths modelled here, either because
  it bounds-checks first or because the index is provably in range).
* `raiseErr` never returns, so every fatal error is modelled as `none`;
  a normal return is `some`.
-/

namespace Unikit

/-! ## General category codes (unikit.h) -/

def UNIKIT_GCAT_Lo : Nat := 0x4c6f
def UNIKIT_GCAT_Ll : Nat := 0x4c6c
def UNIKIT_GCAT_So : Nat := 0x536f
def UNIKIT_GCAT_Cs : Nat := 0x4373
def UNIKIT_GCAT_Co : Nat := 0x436f
def UNIKIT_GCAT_Cn : Nat := 0x436e

/-! ## Table decoder (decodeUint16Array, unikit.c lines 130-292) -/

/-- The base-64 digit decoding used in both character loops of
`decodeUint16Array`: `A-Z` map to 0-25, `a-z` to 26-51, `0-9` to 52-61,
`+` to 62, `/` to 63; any other character (including `=`) raises an
error, modelled as `none`. -/
def b64Digit (c : Char) : Option Nat :=
  if 'A' ≤ c ∧ c ≤ 'Z' then some (c.toNat - 'A'.toNat)
  else if 'a' ≤ c ∧ c ≤ 'z' then some (c.toNat - 'a'.toNat + 26)
  else if '0' ≤ c ∧ c ≤ '9' then some (c.toNat - '0'.toNat + 52)
  else if c = '+' then some 62
  else if c = '/' then some 63
  else none

/-- The accumulator loop `iv64 = (iv64 << 6) | c` over a character list,
starting from accumulator `a`. -/
def b64Acc : List Char → Nat → Option Nat
  | [], a => some a
  | c :: cs, a =>
    match b64Digit c with
    | none => none
    | some v => b64Acc cs (a * 64 + v)

/-- The full-group loop of `decodeUint16Array`: each group of eight
characters accumulates 48 bits and is stored as three 16-bit words,
most significant first (`iv64 >> 32`, `(iv64 >> 16) & 0xffff`,
`iv64 & 0xffff`). -/
def groupWords : Nat → List Char → Option (List Nat)
  | 0, _ => some []
  | g + 1, cs =>
    match b64Acc (cs.take 8) 0 with
    | none => none
    | some acc =>
      match groupWords g (cs.drop 8) with
      | none => none
      | some ws =>
        some ([acc / 2 ^ 32 % 65536, acc / 2 ^ 16 % 65536, acc % 65536] ++ ws)

/-- The number of full eight-character groups: `slen / 8`, reduced by one
when there is at least one group and the character at index
`(slen / 8) * 8 - 1` is `=` (the last group is then an incomplete
remainder). -/
def b64Groups (s : List Char) : Nat :=
  if 0 < s.length / 8 ∧ s.getD (s.length / 8 * 8 - 1) 'A' = '=' then
    s.length / 8 - 1
  else s.length / 8

/-- The number of extra 16-bit words beyond the full groups: the remainder
after the full groups has length 0, 4 or 8 characters, giving 0, 1 or 2
extra words. -/
def b64Extra (s : List Char) : Nat := (s.length - 8 * b64Groups s) / 4

/-- Shallow embedding of `decodeUint16Array`.  The input is the
nul-terminated string as a character list (without the nul); every
`raiseErr` path is `none`.  Mirrors the C control flow: length check,
incomplete-last-group detection, extra-word count from the remainder
length, full-group decode, partial-group decode with the byte-aligning
shifts, and the final check that everything after the data characters is
`=` padding. -/
def decodeUint16Array (s : List Char) : Option (List Nat) :=
  if s.length < 1 ∨ s.length % 4 ≠ 0 then none
  else if 0 < s.length / 8 ∧ s.getD (s.length / 8 * 8 - 1) 'A' = '=' ∧
      s.length % 8 ≠ 0 then none
  else
    if hx : s.length - 8 * b64Groups s = 0 ∨ s.length - 8 * b64Groups s = 4 ∨
        s.length - 8 * b64Groups s = 8 then
      match groupWords (b64Groups s) s with
      | none => none
      | some gw =>
        match b64Acc ((s.drop (8 * b64Groups s)).take (b64Extra s * 3)) 0 with
        | none => none
        | some acc =>
          let ew : List Nat :=
            if b64Extra s = 1 then [acc / 4 % 65536]
            else if b64Extra s = 2 then
              [acc / 16 / 65536 % 65536, acc / 16 % 65536]
            else []
          if ((s.drop (8 * b64Groups s)).drop (b64Extra s * 3)).all
              (fun c => c = '=') then
            some (gw ++ ew)
          else none
    else none

/-- The extra-word formula exactly as claim C3 words it for a four
character remainder: accumulate 24 bits from the remainder at 6 bits
per character (the `=` pad, which encodes no bits, contributing 0),
shift right 2 to discard the 2 low padding bits, and keep the low 16
bits.  Compare with the code, which accumulates 18 bits from the three
base-64 digit characters only and shifts right 2. -/
def claimRem4Word (c0 c1 c2 c3 : Char) : Nat :=
  ((((b64Digit c0).getD 0 * 64 + (b64Digit c1).getD 0) * 64 +
    (b64Digit c2).getD 0) * 64 + (b64Digit c3).getD 0) / 4 % 65536

/-! ## Trie query engine (queryTrie, unikit.c lines 341-404) -/

/-- The non-final-nybble loop of `queryTrie`: walk the listed nybbles from
table offset `tptr`; a read beyond `tlen` is a fatal error (`none`), the
sentinel `0xffff` ends the walk with no table (`some none`, the C sets
`tptr = -1` and breaks), and otherwise the next offset is the record
value times 16. -/
def trieWalk (t : List Nat) : List Nat → Nat → Option (Option Nat)
  | [], tptr => some (some tptr)
  | j :: rest, tptr =>
    if t.length ≤ tptr + j then none
    else if t.getD (tptr + j) 0 = 0xffff then some none
    else trieWalk t rest (t.getD (tptr + j) 0 * 16)

/-- The nybble index sequence of the first `depth - 1` loop iterations:
iteration `i` uses `(key >> ((depth - i - 1) * 4)) & 0xf`. -/
def trieNybs (key depth : Nat) : List Nat :=
  (List.range (depth - 1)).map (fun i => (key >>> ((depth - i - 1) * 4)) &&& 0xf)

/-- Shallow embedding of `queryTrie`.  Parameter errors (`tlen < 1`,
`depth` outside 1..8) and trie bound errors are `none`; a normal return
(possibly the absent sentinel `0xffff`) is `some`. -/
def queryTrie (t : List Nat) (key : Nat) (depth : Nat) : Option Nat :=
  if t.length < 1 then none
  else if depth < 1 ∨ 8 < depth then none
  else
    match trieWalk t (trieNybs key depth) 0 with
    | none => none
    | some none => some 0xffff
    | some (some tptr) =>
      if t.length ≤ tptr + (key &&& 0xf) then none
      else some (t.getD (tptr + (key &&& 0xf)) 0)

/-- Trie query algorithm as the specification words it (spec §4.2 /
claim C2), for comparison with the `queryTrie` embedding: with `d`
levels remaining from node offset `node`, consume the next
most-significant nybble — a read beyond the array length is a fatal
error (`none`), a consulted word equal to 0xFFFF makes the whole query
result Absent at once, and otherwise the word times 16 is the next node
offset — and at the last level read the word indexed by the least
significant nybble of the key and return it verbatim. -/
def specTrieStep (t : List Nat) (key : Nat) : Nat → Nat → Option Nat
  | 0, _ => none
  | 1, node =>
    if t.length ≤ node + (key &&& 0xf) then none
    else some (t.getD (node + (key &&& 0xf)) 0)
  | d + 2, node =>
    if t.length ≤ node + ((key >>> ((d + 1) * 4)) &&& 0xf) then none
    else if t.getD (node + ((key >>> ((d + 1) * 4)) &&& 0xf)) 0 = 0xffff then
      some 0xffff
    else
      specTrieStep t key (d + 1)
        (t.getD (node + ((key >>> ((d + 1) * 4)) &&& 0xf)) 0 * 16)

/-- The specification-side trie query: start at node offset 0. -/
def specTrieClaim (t : List Nat) (key depth : Nat) : Option Nat :=
  specTrieStep t key depth 0

/-! ## Module state and lifecycle (unikit.c lines 61-90, 416-452) -/

/-- The module-level state of unikit.c: the eight decoded tables plus the
initialization flag.  Lengths are the list lengths. -/
structure UnikitState where
  case_lower : List Nat
  case_upper : List Nat
  case_data : List Nat
  gcat_core : List Nat
  gcat_gen_low : List Nat
  gcat_gen_high : List Nat
  gcat_bitmap : List Nat
  gcat_astral : List Nat
  init : Bool

/-- The eight encoded strings handed over by the data source collaborator
(unikit_data.c, which is external to the engine modelled here). -/
structure DataTables where
  case_lower : List Char
  case_upper : List Char
  case_data : List Char
  gcat_core : List Char
  gcat_gen_low : List Char
  gcat_gen_high : List Char
  gcat_bitmap : List Char
  gcat_astral : List Char

/-- Shallow embedding of `unikit_init`: a second initialization is a fatal
error; otherwise all eight tables are decoded (a decode failure is
fatal) and the state carries them with the flag set. -/
def unikit_init (st : UnikitState) (d : DataTables) : Option UnikitState :=
  if st.init then none
  else
    match decodeUint16Array d.case_lower, decodeUint16Array d.case_upper,
        decodeUint16Array d.case_data, decodeUint16Array d.gcat_core,
        decodeUint16Array d.gcat_gen_low, decodeUint16Array d.gcat_gen_high,
        decodeUint16Array d.gcat_bitmap, decodeUint16Array d.gcat_astral with
    | some cl, some cu, some cd, some gc, some gl, some gh, some gb, some ga =>
      some ⟨cl, cu, cd, gc, gl, gh, gb, ga, true⟩
    | _, _, _, _, _, _, _, _ => none

/-- Shallow embedding of `unikit_valid` (unikit.c lines 457-469).  The C
function reads no module state: in particular it does not consult the
initialization flag and cannot fail. -/
def unikit_valid (cv : Int) : Bool :=
  if 0 ≤ cv ∧ cv ≤ 0x10ffff then
    if 0xd800 ≤ cv ∧ cv ≤ 0xdfff then false
    else true
  else false

/-! ## Case folder (unikit_fold, unikit.c lines 474-568) -/

/-- The result structure: `cpa` models the `int32_t cpa[4]` array (always
four entries after the memset), `len` its used length. -/
structure UNIKIT_FOLD where
  cpa : List Int
  len : Nat
  deriving DecidableEq, Repr

/-- Shallow embedding of `unikit_fold`.  The returned `Bool` is the C
return value as a flag: `true` means non-trivial folding.  Fatal errors
(not initialized, invalid codepoint, trie bound error, data bound
error) are `none`. -/
def unikit_fold (st : UnikitState) (cv : Int) : Option (UNIKIT_FOLD × Bool) :=
  if st.init = false then none
  else if unikit_valid cv = false then none
  else
    let plane : Int :=
      if 0 ≤ cv ∧ cv ≤ 0xffff then 0
      else if 0x10000 ≤ cv ∧ cv ≤ 0x1ffff then 1
      else -1
    let q : Option Nat :=
      if plane = 0 then queryTrie st.case_lower (cv.toNat &&& 0xffff) 4
      else if plane = 1 then queryTrie st.case_upper (cv.toNat &&& 0xffff) 4
      else some 0xffff
    match q with
    | none => none
    | some r =>
      if r ≠ 0xffff then
        let sqlen := (r &&& 0x3) + 1
        let base := r >>> 2
        if (base : Int) > (st.case_data.length : Int) - (sqlen : Int) then none
        else
          let cpa : List Int :=
            ((List.range sqlen).map (fun i =>
              ((st.case_data.getD (base + i) 0 : Nat) : Int) +
                (if plane = 1 then 0x10000 else 0))) ++
              List.replicate (4 - sqlen) 0
          let ntriv : Bool :=
            if sqlen = 1 then (if cpa.getD 0 0 = cv then false else true)
            else true
          some (⟨cpa, sqlen⟩, ntriv)
      else
        some (⟨[cv, 0, 0, 0], 1⟩, false)

/-! ## Category classifier (unikit_category, unikit.c lines 573-747) -/

/-- Plane field of astral record `i` (`m_gcat_astral[i * 4]`). -/
def recPlane (A : List Nat) (i : Nat) : Nat := A.getD (i * 4) 0

/-- Low-offset field of astral record `i` (`m_gcat_astral[i * 4 + 1]`). -/
def recLow (A : List Nat) (i : Nat) : Nat := A.getD (i * 4 + 1) 0

/-- High-offset field of astral record `i` (`m_gcat_astral[i * 4 + 2]`). -/
def recHigh (A : List Nat) (i : Nat) : Nat := A.getD (i * 4 + 2) 0

/-- Category field of astral record `i` (`m_gcat_astral[i * 4 + 3]`). -/
def recCat (A : List Nat) (i : Nat) : Nat := A.getD (i * 4 + 3) 0

/-- Record `i`'s key `(plane, lowOffset)` does not exceed the query key
`(p, o)` in the lexicographic order used by the search comparison. -/
def keyLe (A : List Nat) (i p o : Nat) : Prop :=
  recPlane A i < p ∨ (recPlane A i = p ∧ recLow A i ≤ o)

instance (A : List Nat) (i p o : Nat) : Decidable (keyLe A i p o) := by
  unfold keyLe; exact inferInstance

/-- Record `i`'s key is lexicographically below record `j`'s key: the
sortedness relation of the astral table. -/
def keyRecLt (A : List Nat) (i j : Nat) : Prop :=
  recPlane A i < recPlane A j ∨
    (recPlane A i = recPlane A j ∧ recLow A i < recLow A j)

instance (A : List Nat) (i j : Nat) : Decidable (keyRecLt A i j) := by
  unfold keyRecLt; exact inferInstance

/-- The midpoint rule of the astral binary search:
`mid = lbound + (ubound - lbound) / 2`, bumped to `lbound + 1` whenever
that is not above `lbound`. -/
def astralMid (l u : Nat) : Nat :=
  if l + (u - l) / 2 ≤ l then l + 1 else l + (u - l) / 2

theorem astralMid_lt (l u : Nat) (h : l < u) : l < astralMid l u := by
  unfold astralMid; split <;> omega

theorem astralMid_le (l u : Nat) (h : l < u) : astralMid l u ≤ u := by
  unfold astralMid
  have : (u - l) / 2 ≤ u - l := Nat.div_le_self _ _
  split <;> omega

/-- The `while (lbound < ubound)` loop of the astral band: compare the
query key `(p, o)` with the midpoint record key; move `ubound` below the
midpoint when the query is smaller, move `lbound` to the midpoint when
it is larger, and collapse to the midpoint on an exact key match.  The
result is the final `lbound`. -/
def astralSearch (A : List Nat) (p o : Nat) (l u : Nat) : Nat :=
  if h : l < u then
    if p < recPlane A (astralMid l u) then
      astralSearch A p o l (astralMid l u - 1)
    else if recPlane A (astralMid l u) < p then
      astralSearch A p o (astralMid l u) u
    else if o < recLow A (astralMid l u) then
      astralSearch A p o l (astralMid l u - 1)
    else if recLow A (astralMid l u) < o then
      astralSearch A p o (astralMid l u) u
    else astralMid l u
  else l
  termination_by u - l
  decreasing_by
  all_goals
    have h1 := astralMid_lt l u h
    have h2 := astralMid_le l u h
    omega

/-- The astral band after the search: take the record selected by the
binary search over record indices `0 .. length / 4 - 1`; if the query
`(p, o)` is covered by that record, its category, else `Cn`. -/
def astralLookup (A : List Nat) (p o : Nat) : Nat :=
  let s := astralSearch A p o 0 (A.length / 4 - 1)
  if p = recPlane A s ∧ recLow A s ≤ o ∧ o ≤ recHigh A s then recCat A s
  else UNIKIT_GCAT_Cn

/-- The packed-bitmap field of the general band: two bits per codepoint,
cell index `(cv - 0x100) / 8`, bit shift `((cv - 0x100) mod 8) * 2`. -/
def bitmapField (bm : List Nat) (cvn : Nat) : Nat :=
  (bm.getD ((cvn - 0x100) / 8) 0 >>> ((cvn - 0x100) % 8 * 2)) &&& 0x3

/-- Shallow embedding of `unikit_category`.  Fatal errors (not
initialized, wrong core table length, bitmap query out of range, trie
bound errors, bad astral table length) are `none`; every normal return
is `some` of the category code. -/
def unikit_category (st : UnikitState) (cv : Int) : Option Nat :=
  if st.init = false then none
  else if 0 ≤ cv ∧ cv ≤ 0xff then
    if st.gcat_core.length ≠ 256 then none
    else some (st.gcat_core.getD cv.toNat 0)
  else if 0x100 ≤ cv ∧ cv ≤ 0x1ffff then
    if st.gcat_bitmap.length ≤ (cv.toNat - 0x100) / 8 then none
    else
      let v := bitmapField st.gcat_bitmap cv.toNat
      if v = 1 then some UNIKIT_GCAT_Lo
      else if v = 2 then some UNIKIT_GCAT_Ll
      else if v = 3 then some UNIKIT_GCAT_So
      else if v = 0 then
        match (if cv ≤ 0xffff then queryTrie st.gcat_gen_low cv.toNat 4
          else queryTrie st.gcat_gen_high (cv.toNat &&& 0xffff) 4) with
        | none => none
        | some r =>
          if r = 0xffff then
            if 0xd800 ≤ cv ∧ cv ≤ 0xdfff then some UNIKIT_GCAT_Cs
            else if 0xe000 ≤ cv ∧ cv ≤ 0xf8ff then some UNIKIT_GCAT_Co
            else some UNIKIT_GCAT_Cn
          else some r
      else none
  else if 0x20000 ≤ cv ∧ cv ≤ 0x10ffff then
    if st.gcat_astral.length < 1 ∨ st.gcat_astral.length % 4 ≠ 0 then none
    else some (astralLookup st.gcat_astral (cv.toNat >>> 16) (cv.toNat &&& 0xffff))
  else some UNIKIT_GCAT_Cn

/-! ## Helper lemmas -/

theorem getD_replicate_self (a : α) (m k : Nat) :
    (List.replicate m a).getD k a = a := by
  induction m generalizing k with
  | zero => simp [List.getD]
  | succ m ih =>
    cases k with
    | zero => simp [List.replicate, List.getD]
    | succ k => simp only [List.replicate, List.getD_cons_succ]; exact ih k

theorem b64Acc_append (xs ys : List Char) (a : Nat) :
    b64Acc (xs ++ ys) a =
      match b64Acc xs a with
      | none => none
      | some b => b64Acc ys b := by
  induction xs generalizing a with
  | nil => simp [b64Acc]
  | cons c cs ih =>
    simp only [List.cons_append, b64Acc]
    cases b64Digit c with
    | none => rfl
    | some v => exact ih _

theorem b64Acc_digits (cs : List Char) (a x : Nat)
    (h : b64Acc cs a = some x) : ∀ c ∈ cs, b64Digit c ≠ none := by
  induction cs generalizing a with
  | nil => intro c hc; simp at hc
  | cons c0 cs ih =>
    intro c hc
    simp only [b64Acc] at h
    cases hd : b64Digit c0 with
    | none => rw [hd] at h; exact Option.noConfusion h
    | some v =>
      rw [hd] at h
      rcases List.mem_cons.mp hc with rfl | hc2
      · rw [hd]; exact Option.noConfusion
      · exact ih _ h c hc2

theorem groupWords_append (g : Nat) (gs r : List Char) (hg : gs.length = 8 * g) :
    groupWords g (gs ++ r) = groupWords g gs := by
  induction g generalizing gs with
  | zero => simp [groupWords]
  | succ g ih =>
    have h8 : 8 ≤ gs.length := by omega
    simp only [groupWords]
    rw [List.take_append_of_le_length h8, List.drop_append_of_le_length h8,
      ih (gs.drop 8) (by simp [List.length_drop]; omega)]

theorem groupWords_digits (g : Nat) (cs : List Char) (ws : List Nat)
    (hlen : cs.length = 8 * g) (h : groupWords g cs = some ws) :
    ∀ c ∈ cs, b64Digit c ≠ none := by
  induction g generalizing cs ws with
  | zero =>
    intro c hc
    have hnil : cs = [] := List.length_eq_zero.mp (by omega)
    subst hnil; simp at hc
  | succ g ih =>
    intro c hc
    simp only [groupWords] at h
    cases ha : b64Acc (cs.take 8) 0 with
    | none => rw [ha] at h; exact Option.noConfusion h
    | some acc =>
      rw [ha] at h
      cases hw : groupWords g (cs.drop 8) with
      | none => rw [hw] at h; exact Option.noConfusion h
      | some ws2 =>
        have hsplit := List.take_append_drop 8 cs
        rcases List.mem_append.mp (by rw [hsplit]; exact hc) with h1 | h2
        · exact b64Acc_digits _ _ _ ha c h1
        · exact ih (cs.drop 8) ws2 (by simp [List.length_drop]; omega) hw c h2

theorem groupWords_length (g : Nat) (cs : List Char) (ws : List Nat)
    (h : groupWords g cs = some ws) : ws.length = 3 * g := by
  induction g generalizing cs ws with
  | zero =>
    simp only [groupWords, Option.some.injEq] at h
    subst h; rfl
  | succ g ih =>
    simp only [groupWords] at h
    cases ha : b64Acc (cs.take 8) 0 with
    | none => rw [ha] at h; exact Option.noConfusion h
    | some acc =>
      rw [ha] at h
      cases hw : groupWords g (cs.drop 8) with
      | none => rw [hw] at h; exact Option.noConfusion h
      | some ws2 =>
        rw [hw] at h
        simp only [Option.some.injEq] at h
        subst h
        have := ih (cs.drop 8) ws2 hw
        simp [List.length_append, this]
        omega

/-! ## Concrete states used by the witnesses -/

/-- A state whose core table maps every byte to 7, used to witness the
core band. -/
def stCore : UnikitState :=
  ⟨[], [], [], List.replicate 256 7, [], [], [], [], true⟩

/-- The uninitialized state. -/
def stOff : UnikitState := ⟨[], [], [], [], [], [], [], [], false⟩

/-- Empty data tables handed to a double initialization. -/
def dEmpty : DataTables := ⟨[], [], [], [], [], [], [], []⟩

/-- A state with a two-level case folding trie hit for key 0x41 in both
planes (payload 0 at table 1, index 1: sequence length 1, base 0) and
the one-word case data array [0x61]. -/
def stFold : UnikitState :=
  ⟨[0, 0xffff, 0xffff, 0xffff, 1, 0xffff, 0xffff, 0xffff,
    0xffff, 0xffff, 0xffff, 0xffff, 0xffff, 0xffff, 0xffff, 0xffff,
    0xffff, 0, 0xffff, 0xffff, 0xffff, 0xffff, 0xffff, 0xffff,
    0xffff, 0xffff, 0xffff, 0xffff, 0xffff, 0xffff, 0xffff, 0xffff],
   [0, 0xffff, 0xffff, 0xffff, 1, 0xffff, 0xffff, 0xffff,
    0xffff, 0xffff, 0xffff, 0xffff, 0xffff, 0xffff, 0xffff, 0xffff,
    0xffff, 0, 0xffff, 0xffff, 0xffff, 0xffff, 0xffff, 0xffff,
    0xffff, 0xffff, 0xffff, 0xffff, 0xffff, 0xffff, 0xffff, 0xffff],
   [0x61], [], [], [], [], [], true⟩

/-- A state with a one-cell bitmap whose low field is 1, used to witness
the bitmap fast path of the general band. -/
def stBitmap : UnikitState :=
  ⟨[], [], [], [], [], [], [1], [], true⟩

/-- A state whose astral table holds the two records
(plane 2, 0x100..0x1ff, category 100) and
(plane 3, 0x0000..0xffff, category 200). -/
def stAstral : UnikitState :=
  ⟨[], [], [], [], [], [], [], [2, 0x100, 0x1ff, 100, 3, 0, 0xffff, 200], true⟩

/-! ## The claims -/

/-- C7: for cv in 0x00..=0xFF with the module initialized,
`unikit_category cv` is the core table entry at index cv when the
decoded core table has length exactly 256, and any other core table
length is a fatal configuration error (no result is returned). -/
theorem c7_core_band (st : UnikitState) (cv : Int)
    (hinit : st.init = true) (h0 : 0 ≤ cv) (h255 : cv ≤ 0xff) :
    (st.gcat_core.length = 256 →
      unikit_category st cv = some (st.gcat_core.getD cv.toNat 0)) ∧
    (st.gcat_core.length ≠ 256 → unikit_category st cv = none) := by
  have hband : 0 ≤ cv ∧ cv ≤ 0xff := ⟨h0, h255⟩
  constructor <;> intro h <;> simp [unikit_category, hinit, hband, h]

/-- Witness for C7 at the concrete state `stCore` and cv = 0x41. -/
theorem c7_core_band_witness :
    stCore.init = true ∧ stCore.gcat_core.length = 256 ∧
    unikit_category stCore 0x41 = some (stCore.gcat_core.getD (Int.toNat 0x41) 0) :=
  ⟨rfl, by simp [stCore],
    (c7_core_band stCore 0x41 rfl (by decide) (by decide)).1 (by simp [stCore])⟩

/-- C8: any cv outside 0..=0x10FFFF (including every negative value)
is classified Cn by `unikit_category` with the module initialized; no
table is consulted (the state's tables are arbitrary here) and the
function cannot fail. -/
theorem c8_out_of_range (st : UnikitState) (cv : Int) (hinit : st.init = true)
    (h : cv < 0 ∨ 0x10ffff < cv) :
    unikit_category st cv = some UNIKIT_GCAT_Cn := by
  have h1 : ¬(0 ≤ cv ∧ cv ≤ 0xff) := by omega
  have h2 : ¬(0x100 ≤ cv ∧ cv ≤ 0x1ffff) := by omega
  have h3 : ¬(0x20000 ≤ cv ∧ cv ≤ 0x10ffff) := by omega
  simp [unikit_category, hinit, h1, h2, h3]

/-- Witness for C8 at cv = -1 and cv = 0x110000 on a state with empty
tables. -/
theorem c8_out_of_range_witness :
    unikit_category stOff 0 = none ∧
    unikit_category stCore (-1) = some UNIKIT_GCAT_Cn ∧
    unikit_category stCore 0x110000 = some UNIKIT_GCAT_Cn :=
  ⟨by decide,
   c8_out_of_range stCore (-1) rfl (Or.inl (by decide)),
   c8_out_of_range stCore 0x110000 rfl (Or.inr (by decide))⟩

/-- Counterexample to C9 as stated: the claim says every public query
function, including codepoint validity checking, raises a fatal usage
error before initialization; but `unikit_valid` (unikit.c lines 457-469)
reads no module state at all — its embedding takes no state parameter
because the C function consults neither `m_init` nor any table — and it
returns normally on every input, initialized or not. -/
theorem c9_counterexample : unikit_valid 0x41 = true ∧ unikit_valid (-1) = false := by
  constructor <;> decide

/-- C9 (amended): `unikit_fold` and `unikit_category` raise a fatal usage
error when called before initialization, and a second `unikit_init` is a
fatal usage error; `unikit_valid` performs no initialization check and
always returns the validity predicate
(0 <= cv <= 0x10FFFF and cv not in 0xD800..=0xDFFF). -/
theorem c9_lifecycle :
    (∀ (st : UnikitState) (cv : Int), st.init = false → unikit_fold st cv = none) ∧
    (∀ (st : UnikitState) (cv : Int), st.init = false → unikit_category st cv = none) ∧
    (∀ (st : UnikitState) (d : DataTables), st.init = true → unikit_init st d = none) ∧
    (∀ cv : Int, unikit_valid cv =
      (decide (0 ≤ cv ∧ cv ≤ 0x10ffff) && !decide (0xd800 ≤ cv ∧ cv ≤ 0xdfff))) := by
  refine ⟨?_, ?_, ?_, ?_⟩
  · intro st cv h; simp [unikit_fold, h]
  · intro st cv h; simp [unikit_category, h]
  · intro st d h; simp [unikit_init, h]
  · intro cv
    unfold unikit_valid
    by_cases h1 : 0 ≤ cv ∧ cv ≤ 0x10ffff <;>
      by_cases h2 : 0xd800 ≤ cv ∧ cv ≤ 0xdfff <;> simp [h1, h2]

/-- Witness for C9 at concrete states. -/
theorem c9_lifecycle_witness :
    unikit_fold stOff 0x41 = none ∧ unikit_category stOff 0x41 = none ∧
    unikit_init stCore dEmpty = none ∧
    unikit_valid 0x20 = (decide ((0 : Int) ≤ 0x20 ∧ (0x20 : Int) ≤ 0x10ffff) &&
      !decide ((0xd800 : Int) ≤ 0x20 ∧ (0x20 : Int) ≤ 0xdfff)) :=
  ⟨c9_lifecycle.1 stOff 0x41 rfl, c9_lifecycle.2.1 stOff 0x41 rfl,
   c9_lifecycle.2.2.1 stCore dEmpty rfl, c9_lifecycle.2.2.2 0x20⟩

/-- C10: whenever `unikit_fold` returns, the result codepoint array has
exactly four entries and every entry at index >= len is 0: the structure
is zeroed (memset) before the 1-to-4 output codepoints are written. -/
theorem c10_zero_tail (st : UnikitState) (cv : Int) (f : UNIKIT_FOLD) (b : Bool)
    (hres : unikit_fold st cv = some (f, b)) :
    f.cpa.length = 4 ∧ ∀ i, f.len ≤ i → i < 4 → f.cpa.getD i 0 = 0 := by
  simp only [unikit_fold] at hres
  split at hres
  · exact Option.noConfusion hres
  split at hres
  · exact Option.noConfusion hres
  split at hres
  · exact Option.noConfusion hres
  rename_i r heq
  split at hres
  · split at hres
    · exact Option.noConfusion hres
    · rename_i hne hbound
      simp only [Option.some.injEq, Prod.mk.injEq] at hres
      obtain ⟨hf, hb⟩ := hres
      subst hf
      have hsq : r &&& 0x3 ≤ 3 := Nat.and_le_right
      constructor
      · simp only [List.length_append, List.length_map, List.length_range,
          List.length_replicate]
        omega
      · intro i hi1 hi2
        simp only at hi1
        rw [List.getD_append_right _ _ _ _ (by simpa using hi1)]
        exact getD_replicate_self 0 _ _
  · rename_i hr
    simp only [Option.some.injEq, Prod.mk.injEq] at hres
    obtain ⟨hf, hb⟩ := hres
    subst hf
    refine ⟨rfl, ?_⟩
    intro i hi1 hi2
    simp only at hi1
    interval_cases i <;> rfl

/-- Witness for C10 at the concrete state `stFold` and cv = 0x41
(folds to the single codepoint 0x61, so indices 1..3 are zero). -/
theorem c10_zero_tail_witness :
    unikit_fold stFold 0x41 = some (⟨[0x61, 0, 0, 0], 1⟩, true) ∧
    (⟨[0x61, 0, 0, 0], 1⟩ : UNIKIT_FOLD).cpa.length = 4 ∧
    (∀ i, (1 : Nat) ≤ i → i < 4 →
      (⟨[0x61, 0, 0, 0], 1⟩ : UNIKIT_FOLD).cpa.getD i 0 = 0) :=
  ⟨by decide, c10_zero_tail stFold 0x41 ⟨[0x61, 0, 0, 0], 1⟩ true (by decide)⟩

theorem not_keyLe_iff (A : List Nat) (j p o : Nat) :
    ¬ keyLe A j p o ↔ (p < recPlane A j ∨ (p = recPlane A j ∧ o < recLow A j)) := by
  unfold keyLe; omega

theorem qlt_step (A : List Nat) (m j p o : Nat)
    (h1 : p < recPlane A m ∨ (p = recPlane A m ∧ o < recLow A m))
    (h2 : keyRecLt A m j) :
    p < recPlane A j ∨ (p = recPlane A j ∧ o < recLow A j) := by
  unfold keyRecLt at h2; omega

theorem qeq_step (A : List Nat) (m j p o : Nat)
    (h1 : recPlane A m = p ∧ recLow A m = o)
    (h2 : keyRecLt A m j) :
    p < recPlane A j ∨ (p = recPlane A j ∧ o < recLow A j) := by
  unfold keyRecLt at h2; omega

/-- Invariant of the astral binary search: on a table whose record keys
are strictly ascending below `n`, starting from an interval `[l, u]`
such that every record above `u` has key above the query and `l` either
has key at most the query or is 0, the search lands in the interval, on
a record whose key is at most the query unless it is record 0, and
every record above the result has key above the query. -/
theorem astralSearch_inv (A : List Nat) (p o : Nat) (n : Nat)
    (hs : ∀ j, j < n → ∀ i, i < j → keyRecLt A i j) :
    ∀ l u, l ≤ u → u < n →
      (∀ j, u < j → j < n → ¬ keyLe A j p o) →
      (keyLe A l p o ∨ l = 0) →
      l ≤ astralSearch A p o l u ∧ astralSearch A p o l u ≤ u ∧
        (keyLe A (astralSearch A p o l u) p o ∨ astralSearch A p o l u = 0) ∧
        (∀ j, astralSearch A p o l u < j → j < n → ¬ keyLe A j p o) := by
  intro l u
  induction l, u using astralSearch.induct A p o with
  | case1 l u hlt hcmp ih =>
    intro hle hun hP1 hP2
    have hml := astralMid_lt l u hlt
    have hmu := astralMid_le l u hlt
    rw [astralSearch, dif_pos hlt, if_pos hcmp]
    have hP1' : ∀ j, astralMid l u - 1 < j → j < n → ¬ keyLe A j p o := by
      intro j hj1 hj2
      rw [not_keyLe_iff]
      rcases Nat.eq_or_lt_of_le (show astralMid l u ≤ j by omega) with rfl | hlt2
      · exact Or.inl hcmp
      · exact qlt_step A _ j p o (Or.inl hcmp) (hs j hj2 _ hlt2)
    have hres := ih (by omega) (by omega) hP1' hP2
    exact ⟨hres.1, by omega, hres.2.2⟩
  | case2 l u hlt hcmp1 hcmp2 ih =>
    intro hle hun hP1 hP2
    have hml := astralMid_lt l u hlt
    have hmu := astralMid_le l u hlt
    rw [astralSearch, dif_pos hlt, if_neg hcmp1, if_pos hcmp2]
    have hP2' : keyLe A (astralMid l u) p o ∨ astralMid l u = 0 :=
      Or.inl (Or.inl hcmp2)
    have hres := ih hmu hun hP1 hP2'
    exact ⟨by omega, hres.2.1, hres.2.2⟩
  | case3 l u hlt hcmp1 hcmp2 hcmp3 ih =>
    intro hle hun hP1 hP2
    have hml := astralMid_lt l u hlt
    have hmu := astralMid_le l u hlt
    have hpe : p = recPlane A (astralMid l u) := by omega
    rw [astralSearch, dif_pos hlt, if_neg hcmp1, if_neg hcmp2, if_pos hcmp3]
    have hP1' : ∀ j, astralMid l u - 1 < j → j < n → ¬ keyLe A j p o := by
      intro j hj1 hj2
      rw [not_keyLe_iff]
      rcases Nat.eq_or_lt_of_le (show astralMid l u ≤ j by omega) with rfl | hlt2
      · exact Or.inr ⟨hpe, hcmp3⟩
      · exact qlt_step A _ j p o (Or.inr ⟨hpe, hcmp3⟩) (hs j hj2 _ hlt2)
    have hres := ih (by omega) (by omega) hP1' hP2
    exact ⟨hres.1, by omega, hres.2.2⟩
  | case4 l u hlt hcmp1 hcmp2 hcmp3 hcmp4 ih =>
    intro hle hun hP1 hP2
    have hml := astralMid_lt l u hlt
    have hmu := astralMid_le l u hlt
    have hpe : recPlane A (astralMid l u) = p := by omega
    rw [astralSearch, dif_pos hlt, if_neg hcmp1, if_neg hcmp2, if_neg hcmp3,
      if_pos hcmp4]
    have hP2' : keyLe A (astralMid l u) p o ∨ astralMid l u = 0 :=
      Or.inl (Or.inr ⟨hpe, by omega⟩)
    have hres := ih hmu hun hP1 hP2'
    exact ⟨by omega, hres.2.1, hres.2.2⟩
  | case5 l u hlt hcmp1 hcmp2 hcmp3 hcmp4 =>
    intro hle hun hP1 hP2
    have hml := astralMid_lt l u hlt
    have hmu := astralMid_le l u hlt
    have hpe : recPlane A (astralMid l u) = p := by omega
    have hoe : recLow A (astralMid l u) = o := by omega
    rw [astralSearch, dif_pos hlt, if_neg hcmp1, if_neg hcmp2, if_neg hcmp3,
      if_neg hcmp4]
    refine ⟨by omega, hmu, Or.inl (Or.inr ⟨hpe, by omega⟩), ?_⟩
    intro j hj1 hj2
    rw [not_keyLe_iff]
    exact qeq_step A _ j p o ⟨hpe, hoe⟩ (hs j hj2 _ hj1)
  | case6 l u hlt =>
    intro hle hun hP1 hP2
    have hlu : l = u := by omega
    rw [astralSearch, dif_neg hlt]
    refine ⟨le_refl l, hle, hP2, ?_⟩
    intro j hj1 hj2
    exact hP1 j (by omega) hj2

/-- C1: for cv in 0x20000..=0x10FFFF with the module initialized and the
astral table well-formed — length a non-zero multiple of 4 and records
sorted strictly ascending by (plane, lowOffset), which is what sorted
ascending plus mutually non-overlapping amounts to at key level —
`unikit_category` selects the record with the greatest (plane, lowOffset)
key not exceeding (cv >> 16, cv & 0xFFFF) (first conjunct: any record
`s` that is maximal among the key-below records determines the result),
returns that record's category exactly when the query offset lies in
[lowOffset, highOffset] on the matching plane and Cn otherwise, and
returns Cn when no record key is below the query (second conjunct).
The upper-median search loop always terminates: `astralSearch` is a
total function, defined by well-founded recursion on `ubound - lbound`
exactly along the loop's progress argument. -/
theorem c1_astral_band (st : UnikitState) (cv : Int) (hinit : st.init = true)
    (hlo : 0x20000 ≤ cv) (hhi : cv ≤ 0x10ffff)
    (hpos : 1 ≤ st.gcat_astral.length) (hmod : st.gcat_astral.length % 4 = 0)
    (hs : ∀ j, j < st.gcat_astral.length / 4 → ∀ i, i < j →
      keyRecLt st.gcat_astral i j) :
    (∀ s, s < st.gcat_astral.length / 4 →
      keyLe st.gcat_astral s (cv.toNat >>> 16) (cv.toNat &&& 0xffff) →
      (∀ j, j < st.gcat_astral.length / 4 →
        keyLe st.gcat_astral j (cv.toNat >>> 16) (cv.toNat &&& 0xffff) → j ≤ s) →
      unikit_category st cv = some (
        if (cv.toNat >>> 16) = recPlane st.gcat_astral s ∧
            recLow st.gcat_astral s ≤ (cv.toNat &&& 0xffff) ∧
            (cv.toNat &&& 0xffff) ≤ recHigh st.gcat_astral s
        then recCat st.gcat_astral s else UNIKIT_GCAT_Cn)) ∧
    ((∀ j, j < st.gcat_astral.length / 4 →
        ¬ keyLe st.gcat_astral j (cv.toNat >>> 16) (cv.toNat &&& 0xffff)) →
      unikit_category st cv = some UNIKIT_GCAT_Cn) := by
  have hb1 : ¬(0 ≤ cv ∧ cv ≤ 0xff) := by omega
  have hb2 : ¬(0x100 ≤ cv ∧ cv ≤ 0x1ffff) := by omega
  have hb3 : 0x20000 ≤ cv ∧ cv ≤ 0x10ffff := ⟨hlo, hhi⟩
  have hlen : ¬(st.gcat_astral.length < 1 ∨ st.gcat_astral.length % 4 ≠ 0) := by
    omega
  have hn : 1 ≤ st.gcat_astral.length / 4 := by omega
  have hinv := astralSearch_inv st.gcat_astral (cv.toNat >>> 16)
    (cv.toNat &&& 0xffff) (st.gcat_astral.length / 4) hs 0
    (st.gcat_astral.length / 4 - 1) (by omega) (by omega)
    (fun j hj1 hj2 => absurd hj2 (by omega)) (Or.inr rfl)
  obtain ⟨hr1, hr2, hr3, hr4⟩ := hinv
  constructor
  · intro s hsn hkle hmax
    have hsr : s ≤ astralSearch st.gcat_astral (cv.toNat >>> 16)
        (cv.toNat &&& 0xffff) 0 (st.gcat_astral.length / 4 - 1) := by
      by_contra hc
      exact hr4 s (by omega) hsn hkle
    have hrs : astralSearch st.gcat_astral (cv.toNat >>> 16)
        (cv.toNat &&& 0xffff) 0 (st.gcat_astral.length / 4 - 1) = s := by
      rcases hr3 with hk | hz
      · have := hmax _ (by omega) hk
        omega
      · omega
    simp only [unikit_category, hinit, hb1, hb2, hb3, hlen, astralLookup,
      Bool.true_eq_false, if_false, reduceIte, and_self, if_true]
    rw [hrs]
  · intro hnone
    have hcond : ¬((cv.toNat >>> 16) = recPlane st.gcat_astral
        (astralSearch st.gcat_astral (cv.toNat >>> 16) (cv.toNat &&& 0xffff) 0
          (st.gcat_astral.length / 4 - 1)) ∧
        recLow st.gcat_astral (astralSearch st.gcat_astral (cv.toNat >>> 16)
          (cv.toNat &&& 0xffff) 0 (st.gcat_astral.length / 4 - 1)) ≤
          (cv.toNat &&& 0xffff) ∧
        (cv.toNat &&& 0xffff) ≤ recHigh st.gcat_astral
          (astralSearch st.gcat_astral (cv.toNat >>> 16) (cv.toNat &&& 0xffff) 0
            (st.gcat_astral.length / 4 - 1))) := by
      rintro ⟨e1, e2, -⟩
      exact hnone _ (by omega) (Or.inr ⟨e1.symm, e2⟩)
    simp only [unikit_category, hinit, hb1, hb2, hb3, hlen, astralLookup,
      Bool.true_eq_false, if_false, reduceIte, and_self, if_true]
    rw [if_neg hcond]

/-- Witness for C1 at the concrete state `stAstral` (records
(2, 0x100..0x1ff, 100) and (3, 0..0xffff, 200)) and cv = 0x20150, whose
greatest key-below record is record 0, which covers it. -/
theorem c1_astral_band_witness :
    (∀ j, j < stAstral.gcat_astral.length / 4 → ∀ i, i < j →
      keyRecLt stAstral.gcat_astral i j) ∧
    unikit_category stAstral 0x20150 = some (
      if ((0x20150 : Int).toNat >>> 16) = recPlane stAstral.gcat_astral 0 ∧
          recLow stAstral.gcat_astral 0 ≤ ((0x20150 : Int).toNat &&& 0xffff) ∧
          ((0x20150 : Int).toNat &&& 0xffff) ≤ recHigh stAstral.gcat_astral 0
      then recCat stAstral.gcat_astral 0 else UNIKIT_GCAT_Cn) :=
  ⟨by decide,
    (c1_astral_band stAstral 0x20150 rfl (by decide) (by decide) (by decide)
      (by decide) (by decide)).1 0 (by decide) (by decide) (by decide)⟩

/-- Every successful decode has one word per three group characters of
the full groups plus the extra words of the remainder. -/
theorem decode_length_aux (s : List Char) (ws : List Nat)
    (h : decodeUint16Array s = some ws) :
    ws.length = 3 * b64Groups s + b64Extra s := by
  simp only [decodeUint16Array] at h
  split at h
  · exact Option.noConfusion h
  split at h
  · exact Option.noConfusion h
  split at h
  case isTrue hx =>
    split at h
    · exact Option.noConfusion h
    case _ gw hgw =>
      split at h
      · exact Option.noConfusion h
      case _ acc hacc =>
        split at h
        · simp only [Option.some.injEq] at h
          subst h
          have hgl : gw.length = 3 * b64Groups s := groupWords_length _ _ _ hgw
          rcases hx with hx | hx | hx
          · have he : b64Extra s = 0 := by unfold b64Extra; rw [hx]
            simp [hgl, he]
          · have he : b64Extra s = 1 := by unfold b64Extra; rw [hx]
            simp [hgl, he]
          · have he : b64Extra s = 2 := by unfold b64Extra; rw [hx]
            simp [hgl, he]
        · exact Option.noConfusion h
  · exact Option.noConfusion h

/-- A valid-group prefix followed by six base-64 digit characters and
the padding `==` decodes to the group words plus two extra words:
36 accumulated bits, shifted right 4, split high word first. -/
theorem decode_rem8_aux (g : Nat) (gs : List Char) (ws : List Nat)
    (d0 d1 d2 d3 d4 d5 : Char) (v0 v1 v2 v3 v4 v5 : Nat)
    (hg : gs.length = 8 * g) (hws : groupWords g gs = some ws)
    (h0 : b64Digit d0 = some v0) (h1 : b64Digit d1 = some v1)
    (h2 : b64Digit d2 = some v2) (h3 : b64Digit d3 = some v3)
    (h4 : b64Digit d4 = some v4) (h5 : b64Digit d5 = some v5) :
    decodeUint16Array (gs ++ [d0, d1, d2, d3, d4, d5, '=', '=']) =
      some (ws ++
        [(((((v0 * 64 + v1) * 64 + v2) * 64 + v3) * 64 + v4) * 64 + v5) / 16 / 65536 % 65536,
         (((((v0 * 64 + v1) * 64 + v2) * 64 + v3) * 64 + v4) * 64 + v5) / 16 % 65536]) := by
  set r : List Char := [d0, d1, d2, d3, d4, d5, '=', '='] with hr
  have hlen : (gs ++ r).length = 8 * g + 8 := by simp [hg, hr]
  have hg0 : (gs ++ r).length / 8 = g + 1 := by rw [hlen]; omega
  have hgetD : (gs ++ r).getD ((gs ++ r).length / 8 * 8 - 1) 'A' = '=' := by
    rw [hg0]
    have hd8 : (g + 1) * 8 - 1 = gs.length + 7 := by omega
    rw [hd8, List.getD_append_right _ _ _ _ (by omega)]
    simp [hr]
  have hgroups : b64Groups (gs ++ r) = g := by
    unfold b64Groups
    rw [if_pos ⟨by omega, hgetD⟩, hg0]
    omega
  have hc1 : ¬((gs ++ r).length < 1 ∨ (gs ++ r).length % 4 ≠ 0) := by
    rw [hlen]; omega
  have hc2 : ¬(0 < (gs ++ r).length / 8 ∧
      (gs ++ r).getD ((gs ++ r).length / 8 * 8 - 1) 'A' = '=' ∧
      (gs ++ r).length % 8 ≠ 0) := by
    rintro ⟨-, -, hm⟩
    rw [hlen] at hm
    omega
  have hx8 : (gs ++ r).length - 8 * b64Groups (gs ++ r) = 8 := by
    rw [hgroups, hlen]; omega
  have hex : b64Extra (gs ++ r) = 2 := by
    unfold b64Extra; rw [hx8]
  have hgw : groupWords (b64Groups (gs ++ r)) (gs ++ r) = some ws := by
    rw [hgroups, groupWords_append g gs _ hg]; exact hws
  have hdrop : (gs ++ r).drop (8 * b64Groups (gs ++ r)) = r := by
    rw [hgroups, ← hg]
    exact List.drop_left gs _
  have hacc : b64Acc (r.take (b64Extra (gs ++ r) * 3)) 0 =
      some ((((((v0 * 64 + v1) * 64 + v2) * 64 + v3) * 64 + v4) * 64 + v5)) := by
    rw [hex]
    simp [hr, b64Acc, h0, h1, h2, h3, h4, h5]
  unfold decodeUint16Array
  rw [if_neg hc1, if_neg hc2, dif_pos (Or.inr (Or.inr hx8)), hgw, hdrop, hacc, hex]
  simp [hr]

/-- Counterexample to C3 as stated: the claim computes the single extra
word of a four-character remainder by accumulating 24 bits at 6 bits per
character across the remainder and shifting right 2.  On the well-formed
input "AAB=" the code accumulates only 18 bits from the three digit
characters (the fourth remainder character is the `=` pad) and produces
the word 0, while the claim's 24-bit formula produces 16. -/
theorem c3_counterexample :
    decodeUint16Array ['A', 'A', 'B', '='] = some [0] ∧
    claimRem4Word 'A' 'A' 'B' '=' = 16 ∧ (0 : Nat) ≠ 16 := by
  refine ⟨by decide, by decide, by decide⟩

/-- C3 (amended): for every well-formed encoded string whose trailing
remainder is exactly 4 characters — necessarily three base-64 digit
characters followed by `=` — decode produces exactly one extra 16-bit
word beyond the full groups, obtained by accumulating 18 bits from the
three digit characters at 6 bits per character, shifting right 2 to
discard the 2 low padding bits, and keeping the low 16 bits. -/
theorem c3_remainder4 (g : Nat) (gs : List Char) (ws : List Nat)
    (d0 d1 d2 : Char) (v0 v1 v2 : Nat)
    (hg : gs.length = 8 * g) (hws : groupWords g gs = some ws)
    (h0 : b64Digit d0 = some v0) (h1 : b64Digit d1 = some v1)
    (h2 : b64Digit d2 = some v2) :
    decodeUint16Array (gs ++ [d0, d1, d2, '=']) =
      some (ws ++ [((v0 * 64 + v1) * 64 + v2) / 4 % 65536]) := by
  have hlen : (gs ++ [d0, d1, d2, '=']).length = 8 * g + 4 := by simp [hg]
  have hg0 : (gs ++ [d0, d1, d2, '=']).length / 8 = g := by rw [hlen]; omega
  have hcond : ¬(0 < (gs ++ [d0, d1, d2, '=']).length / 8 ∧
      (gs ++ [d0, d1, d2, '=']).getD
        ((gs ++ [d0, d1, d2, '=']).length / 8 * 8 - 1) 'A' = '=') := by
    rw [hg0]
    rintro ⟨hpos, heq⟩
    have hidx : g * 8 - 1 < gs.length := by omega
    rw [List.getD_append _ _ _ _ hidx] at heq
    have hmem : gs.getD (g * 8 - 1) 'A' ∈ gs := by
      rw [List.getD_eq_getElem _ _ hidx]
      exact List.getElem_mem hidx
    have hdig := groupWords_digits g gs ws hg hws _ hmem
    rw [heq] at hdig
    exact hdig (by decide)
  have hgroups : b64Groups (gs ++ [d0, d1, d2, '=']) = g := by
    unfold b64Groups
    rw [if_neg hcond, hg0]
  have hc1 : ¬((gs ++ [d0, d1, d2, '=']).length < 1 ∨
      (gs ++ [d0, d1, d2, '=']).length % 4 ≠ 0) := by
    rw [hlen]; omega
  have hc2 : ¬(0 < (gs ++ [d0, d1, d2, '=']).length / 8 ∧
      (gs ++ [d0, d1, d2, '=']).getD
        ((gs ++ [d0, d1, d2, '=']).length / 8 * 8 - 1) 'A' = '=' ∧
      (gs ++ [d0, d1, d2, '=']).length % 8 ≠ 0) := by
    rintro ⟨ha, hb, -⟩
    exact hcond ⟨ha, hb⟩
  have hx4 : (gs ++ [d0, d1, d2, '=']).length -
      8 * b64Groups (gs ++ [d0, d1, d2, '=']) = 4 := by
    rw [hgroups, hlen]; omega
  have hex : b64Extra (gs ++ [d0, d1, d2, '=']) = 1 := by
    unfold b64Extra; rw [hx4]
  have hgw : groupWords (b64Groups (gs ++ [d0, d1, d2, '=']))
      (gs ++ [d0, d1, d2, '=']) = some ws := by
    rw [hgroups, groupWords_append g gs _ hg]; exact hws
  have hdrop : (gs ++ [d0, d1, d2, '=']).drop
      (8 * b64Groups (gs ++ [d0, d1, d2, '='])) = [d0, d1, d2, '='] := by
    rw [hgroups, ← hg]
    exact List.drop_left gs _
  have hacc : b64Acc ([d0, d1, d2, '='].take
      (b64Extra (gs ++ [d0, d1, d2, '=']) * 3)) 0 =
      some ((v0 * 64 + v1) * 64 + v2) := by
    rw [hex]
    simp [b64Acc, h0, h1, h2]
  unfold decodeUint16Array
  rw [if_neg hc1, if_neg hc2, dif_pos (Or.inr (Or.inl hx4)), hgw, hdrop, hacc, hex]
  simp

/-- Witness for C3: decoding "AAB=" (no full groups, digits 0, 0, 1)
gives the single extra word (0*64*64 + 0*64 + 1) >> 2 = 0. -/
theorem c3_remainder4_witness :
    groupWords 0 [] = some [] ∧ b64Digit 'B' = some 1 ∧
    decodeUint16Array ['A', 'A', 'B', '='] =
      some ([] ++ [((0 * 64 + 0) * 64 + 1) / 4 % 65536]) :=
  ⟨by decide, by decide,
    c3_remainder4 0 [] [] 'A' 'A' 'B' 0 0 1 (by decide) (by decide)
      (by decide) (by decide) (by decide)⟩

/-- Counterexample to C4 as stated: the claim says every encoded string
whose final 8-character group ends in `=` decodes successfully, with or
without further `=` padding among the remainder's characters.  The
string "AAAA====" is such a string, but the code requires exactly six
digit characters before the two pads and fails on it (the `=` at index 4
is hit by the digit loop). -/
theorem c4_counterexample :
    (['A', 'A', 'A', 'A', '=', '=', '=', '='] : List Char).getD 7 'A' = '=' ∧
    decodeUint16Array ['A', 'A', 'A', 'A', '=', '=', '=', '='] = none := by
  refine ⟨by decide, by decide⟩

/-- C4 (amended): an encoded string whose final 8-character group ends in
`=` is excluded from the full-group count and decodes successfully
exactly in the form of six base-64 digit characters followed by `==`;
it then produces exactly two extra 16-bit words: up to 48 bits (here 36)
accumulated across the present digit characters, shifted right 4, split
into two 16-bit words high word first.  And every successful decode has
output length groups*3 + extra. -/
theorem c4_remainder8 :
    (∀ (g : Nat) (gs : List Char) (ws : List Nat)
      (d0 d1 d2 d3 d4 d5 : Char) (v0 v1 v2 v3 v4 v5 : Nat),
      gs.length = 8 * g → groupWords g gs = some ws →
      b64Digit d0 = some v0 → b64Digit d1 = some v1 →
      b64Digit d2 = some v2 → b64Digit d3 = some v3 →
      b64Digit d4 = some v4 → b64Digit d5 = some v5 →
      decodeUint16Array (gs ++ [d0, d1, d2, d3, d4, d5, '=', '=']) =
        some (ws ++
          [(((((v0 * 64 + v1) * 64 + v2) * 64 + v3) * 64 + v4) * 64 + v5) / 16 / 65536 % 65536,
           (((((v0 * 64 + v1) * 64 + v2) * 64 + v3) * 64 + v4) * 64 + v5) / 16 % 65536])) ∧
    (∀ (s : List Char) (ws : List Nat), decodeUint16Array s = some ws →
      ws.length = 3 * b64Groups s + b64Extra s) :=
  ⟨fun g gs ws d0 d1 d2 d3 d4 d5 v0 v1 v2 v3 v4 v5 hg hws h0 h1 h2 h3 h4 h5 =>
    decode_rem8_aux g gs ws d0 d1 d2 d3 d4 d5 v0 v1 v2 v3 v4 v5
      hg hws h0 h1 h2 h3 h4 h5,
   fun s ws h => decode_length_aux s ws h⟩

/-- Witness for C4: decoding "AAAAAB==" (no full groups, accumulator 1)
gives the two extra words [0, 0], and the successful decode of the full
group "AAAAAAAA" has length 3 = 3*1 + 0. -/
theorem c4_remainder8_witness :
    decodeUint16Array
        (([] : List Char) ++ ['A', 'A', 'A', 'A', 'A', 'B', '=', '=']) =
      some (([] : List Nat) ++
        [(((((0 * 64 + 0) * 64 + 0) * 64 + 0) * 64 + 0) * 64 + 1) / 16 / 65536 % 65536,
         (((((0 * 64 + 0) * 64 + 0) * 64 + 0) * 64 + 0) * 64 + 1) / 16 % 65536]) ∧
    ([0, 0, 0] : List Nat).length =
      3 * b64Groups ['A', 'A', 'A', 'A', 'A', 'A', 'A', 'A'] +
        b64Extra ['A', 'A', 'A', 'A', 'A', 'A', 'A', 'A'] :=
  ⟨c4_remainder8.1 0 [] [] 'A' 'A' 'A' 'A' 'A' 'B' 0 0 0 0 0 1
      (by decide) (by decide) (by decide) (by decide) (by decide)
      (by decide) (by decide) (by decide),
   c4_remainder8.2 ['A', 'A', 'A', 'A', 'A', 'A', 'A', 'A'] [0, 0, 0] (by decide)⟩

/-- C5: for cv in 0x100..=0x1FFFF with the module initialized (and the
bitmap covering the cell, as the code bounds-checks), the 2-bit field at
cellIndex = (cv-0x100)/8, bitShift = ((cv-0x100) mod 8)*2 dispatches:
1, 2, 3 yield Lo, Ll, So; 0 queries the depth-4 trie (low trie with key
cv when cv <= 0xFFFF, else high trie with key cv & 0xFFFF), returning a
non-Absent payload as the category, and on Absent falling back to Cs for
0xD800..=0xDFFF, Co for 0xE000..=0xF8FF, and Cn otherwise. -/
theorem c5_general_band (st : UnikitState) (cv : Int) (hinit : st.init = true)
    (hlo : 0x100 ≤ cv) (hhi : cv ≤ 0x1ffff)
    (hcell : (cv.toNat - 0x100) / 8 < st.gcat_bitmap.length) :
    (bitmapField st.gcat_bitmap cv.toNat = 1 →
      unikit_category st cv = some UNIKIT_GCAT_Lo) ∧
    (bitmapField st.gcat_bitmap cv.toNat = 2 →
      unikit_category st cv = some UNIKIT_GCAT_Ll) ∧
    (bitmapField st.gcat_bitmap cv.toNat = 3 →
      unikit_category st cv = some UNIKIT_GCAT_So) ∧
    (bitmapField st.gcat_bitmap cv.toNat = 0 →
      ∀ r, (if cv ≤ 0xffff then queryTrie st.gcat_gen_low cv.toNat 4
          else queryTrie st.gcat_gen_high (cv.toNat &&& 0xffff) 4) = some r →
        (r ≠ 0xffff → unikit_category st cv = some r) ∧
        (r = 0xffff → unikit_category st cv =
          some (if 0xd800 ≤ cv ∧ cv ≤ 0xdfff then UNIKIT_GCAT_Cs
            else if 0xe000 ≤ cv ∧ cv ≤ 0xf8ff then UNIKIT_GCAT_Co
            else UNIKIT_GCAT_Cn))) := by
  have hband1 : ¬(0 ≤ cv ∧ cv ≤ 0xff) := by omega
  have hband2 : 0x100 ≤ cv ∧ cv ≤ 0x1ffff := ⟨hlo, hhi⟩
  have hc : ¬(st.gcat_bitmap.length ≤ (cv.toNat - 0x100) / 8) := by omega
  refine ⟨?_, ?_, ?_, ?_⟩
  · intro hv; simp [unikit_category, hinit, hband1, hband2, hc, hv]
  · intro hv; simp [unikit_category, hinit, hband1, hband2, hc, hv]
  · intro hv; simp [unikit_category, hinit, hband1, hband2, hc, hv]
  · intro hv r hqr
    constructor <;> intro h
    · simp [unikit_category, hinit, hband1, hband2, hc, hv, hqr, h]
    · simp [unikit_category, hinit, hband1, hband2, hc, hv, hqr, h]
      split_ifs <;> rfl

/-- Witness for C5 at the concrete state `stBitmap` (one-cell bitmap with
field value 1) and cv = 0x100. -/
theorem c5_general_band_witness :
    bitmapField stBitmap.gcat_bitmap (Int.toNat 0x100) = 1 ∧
    unikit_category stBitmap 0x100 = some UNIKIT_GCAT_Lo :=
  ⟨by decide,
    (c5_general_band stBitmap 0x100 rfl (by decide) (by decide)
      (by decide)).1 (by decide)⟩

/-- C6: for every valid codepoint with the module initialized,
`unikit_fold` fills a sequence of length 1 to 4 whose flag marks the
fold non-trivial exactly unless the length is 1 and the sole output
equals cv; every cv >= 0x20000 immediately yields the trivial identity
fold; and a plane-1 trie hit copies the case-data words increased by
0x10000 each. -/
theorem c6_fold_shape :
    (∀ (st : UnikitState) (cv : Int) (f : UNIKIT_FOLD) (b : Bool),
      unikit_fold st cv = some (f, b) →
      1 ≤ f.len ∧ f.len ≤ 4 ∧ (b = false ↔ (f.len = 1 ∧ f.cpa.getD 0 0 = cv))) ∧
    (∀ (st : UnikitState) (cv : Int), st.init = true → unikit_valid cv = true →
      0x20000 ≤ cv → unikit_fold st cv = some (⟨[cv, 0, 0, 0], 1⟩, false)) ∧
    (∀ (st : UnikitState) (cv : Int) (r : Nat), st.init = true →
      unikit_valid cv = true → 0x10000 ≤ cv → cv ≤ 0x1ffff →
      queryTrie st.case_upper (cv.toNat &&& 0xffff) 4 = some r → r ≠ 0xffff →
      ¬((r >>> 2 : Nat) : Int) > ((st.case_data.length : Int) - (((r &&& 0x3) + 1 : Nat) : Int)) →
      ∀ i, i < (r &&& 0x3) + 1 →
      (unikit_fold st cv).map (fun x => x.1.cpa.getD i 0) =
        some (((st.case_data.getD ((r >>> 2) + i) 0 : Nat) : Int) + 0x10000)) := by
  refine ⟨?_, ?_, ?_⟩
  · intro st cv f b hres
    simp only [unikit_fold] at hres
    split at hres
    · exact Option.noConfusion hres
    split at hres
    · exact Option.noConfusion hres
    split at hres
    · exact Option.noConfusion hres
    rename_i r heq
    split at hres
    · split at hres
      · exact Option.noConfusion hres
      · rename_i hne hbound
        simp only [Option.some.injEq, Prod.mk.injEq] at hres
        obtain ⟨hf, hb⟩ := hres
        subst hf
        subst hb
        have hsq : r &&& 0x3 ≤ 3 := Nat.and_le_right
        refine ⟨by show 1 ≤ (r &&& 0x3) + 1; omega,
          by show (r &&& 0x3) + 1 ≤ 4; omega, ?_⟩
        dsimp only
        split_ifs with h1 h2 <;> simp_all
    · rename_i hr
      simp only [Option.some.injEq, Prod.mk.injEq] at hres
      obtain ⟨hf, hb⟩ := hres
      subst hf
      subst hb
      exact ⟨le_refl 1, by show (1 : Nat) ≤ 4; omega,
        ⟨fun _ => ⟨rfl, rfl⟩, fun _ => rfl⟩⟩
  · intro st cv hinit hvalid hcv
    have hp1 : ¬(0 ≤ cv ∧ cv ≤ 0xffff) := by omega
    have hp2 : ¬(0x10000 ≤ cv ∧ cv ≤ 0x1ffff) := by omega
    simp [unikit_fold, hinit, hvalid, hp1, hp2]
  · intro st cv r hinit hvalid h1 h2 hq hne hbound i hi
    have hp1 : ¬(0 ≤ cv ∧ cv ≤ 0xffff) := by omega
    have hp2 : 0x10000 ≤ cv ∧ cv ≤ 0x1ffff := ⟨h1, h2⟩
    simp only [unikit_fold, hinit, hvalid, hp1, hp2, and_self, if_true, if_false,
      Bool.true_eq_false, reduceIte, hq, one_ne_zero, hne, ne_eq, not_false_iff,
      hbound, Option.map_some']
    rw [List.getD_append _ _ _ _ (by simpa using hi),
      List.getD_eq_getElem _ _ (by simpa using hi)]
    simp

/-- The nybble list of depth `d + 2` is the nybble at shift
`(d + 1) * 4` followed by the nybble list of depth `d + 1`. -/
theorem trieNybs_succ (key d : Nat) :
    trieNybs key (d + 2) =
      ((key >>> ((d + 1) * 4)) &&& 0xf) :: trieNybs key (d + 1) := by
  unfold trieNybs
  have h21 : d + 2 - 1 = d + 1 := by omega
  have h11 : d + 1 - 1 = d := by omega
  rw [h21, h11, List.range_succ_eq_map, List.map_cons, List.map_map]
  congr 1
  apply List.map_congr_left
  intro i _
  have hs : d + 2 - (i + 1) - 1 = d + 1 - i - 1 := by omega
  simp [Function.comp, hs]

/-- The walk over the first `d` nybbles followed by the final read agrees
with the specification-side recursion at every node offset. -/
theorem trieWalk_spec (t : List Nat) (key : Nat) :
    ∀ d node,
      (match trieWalk t (trieNybs key (d + 1)) node with
        | none => none
        | some none => some 0xffff
        | some (some tptr) =>
          if t.length ≤ tptr + (key &&& 0xf) then none
          else some (t.getD (tptr + (key &&& 0xf)) 0)) =
        specTrieStep t key (d + 1) node := by
  intro d
  induction d with
  | zero => intro node; simp [trieNybs, trieWalk, specTrieStep]
  | succ d ih =>
    intro node
    rw [show d + 1 + 1 = d + 2 from rfl, trieNybs_succ]
    by_cases hb : t.length ≤ node + ((key >>> ((d + 1) * 4)) &&& 0xf)
    · simp only [trieWalk, specTrieStep, if_pos hb]
    · by_cases hs : t.getD (node + ((key >>> ((d + 1) * 4)) &&& 0xf)) 0 = 0xffff
      · simp only [trieWalk, specTrieStep, if_neg hb, if_pos hs]
      · simp only [trieWalk, specTrieStep, if_neg hb, if_neg hs]
        exact ih _

/-- C2: for every trie array, key and depth in 1..=8, `queryTrie` behaves
exactly as the specification describes: it starts at node offset 0,
consumes the first depth-1 nybbles most significant first, returns
Absent (0xFFFF) as soon as a consulted word equals 0xFFFF, otherwise
multiplies the word by 16 to get the next node offset, finally reads the
word indexed by the least significant nybble and returns it verbatim,
and any index beyond the array length at any step is a fatal
data-corruption error instead of a returned value. -/
theorem c2_trie_refinement (t : List Nat) (key depth : Nat)
    (h1 : 1 ≤ depth) (h8 : depth ≤ 8) :
    queryTrie t key depth = specTrieClaim t key depth := by
  obtain ⟨d, rfl⟩ : ∃ d, depth = d + 1 := ⟨depth - 1, by omega⟩
  unfold queryTrie specTrieClaim
  by_cases ht : t.length < 1
  · have hnil : t = [] := by
      cases t with
      | nil => rfl
      | cons a l => simp at ht
    subst hnil
    cases d <;> simp [specTrieStep]
  · have hd : ¬(d + 1 < 1 ∨ 8 < d + 1) := by omega
    simp only [if_neg ht, if_neg hd]
    exact trieWalk_spec t key d 0

/-- Witness for C2 at the case-lower trie of `stFold`, key 0x41,
depth 4. -/
theorem c2_trie_refinement_witness :
    (1 : Nat) ≤ 4 ∧ (4 : Nat) ≤ 8 ∧
    queryTrie stFold.case_lower 0x41 4 = specTrieClaim stFold.case_lower 0x41 4 :=
  ⟨by decide, by decide,
    c2_trie_refinement stFold.case_lower 0x41 4 (by decide) (by decide)⟩

/-- Witness for C6: the folds of 0x41 (non-trivial single codepoint),
0x20000 (identity fold in an astral plane) and 0x10041 (plane-1 hit
shifted up by 0x10000) at the concrete state `stFold`. -/
theorem c6_fold_shape_witness :
    (1 ≤ (1 : Nat) ∧ (1 : Nat) ≤ 4 ∧
      (true = false ↔ ((1 : Nat) = 1 ∧ ([0x61, 0, 0, 0] : List Int).getD 0 0 = 0x41))) ∧
    unikit_fold stFold 0x20000 = some (⟨[0x20000, 0, 0, 0], 1⟩, false) ∧
    (unikit_fold stFold 0x10041).map (fun x => x.1.cpa.getD 0 0) =
      some (((stFold.case_data.getD 0 0 : Nat) : Int) + 0x10000) :=
  ⟨c6_fold_shape.1 stFold 0x41 ⟨[0x61, 0, 0, 0], 1⟩ true (by decide),
   c6_fold_shape.2.1 stFold 0x20000 rfl (by decide) (by decide),
   c6_fold_shape.2.2 stFold 0x10041 0 rfl (by decide) (by decide) (by decide)
     (by decide) (by decide) (by decide) 0 (by decide)⟩

end Unikit
